import Mathlib

/-!
Shallow embedding of the cooperative-runtime core of the `cogo` repository:
the Park/Unpark rendezvous (`src/park.rs`), the hierarchical timeout list
(`src/timeout_list.rs`), the sequential behaviour of the spsc queue
(`src/std/queue/spsc.rs`) and the SameSite handling of the HTTP cookie
collaborator (`src/std/http/cookie.rs`).

Machine integers (`usize`/`u64`) are modelled as `Nat`; where overflow can
matter the wrap at `2^64` is written explicitly.  Stateful code is embedded
as explicit state passing, and the concurrency-sensitive claims are settled
over a transition system whose steps are the source operations taken
atomically (sequential consistency at function granularity).
-/

namespace Cogo

/-! ## Park/Unpark (`src/park.rs`) -/

/-- `ParkError` from `park.rs`: `Canceled` and `Timeout`. -/
inductive ParkError where
  | Canceled
  | Timeout
deriving DecidableEq, Repr

/-- Model of `std::sync::PoisonError<T>`: it wraps the guard value. -/
structure PoisonError (T : Type) where
  guard : T

/-- `impl<T> From<PoisonError<T>> for ParkError` in `park.rs`:
`fn from(_: PoisonError<T>) -> Self { Self::Timeout }`. -/
def parkErrorFromPoison {T : Type} (_ : PoisonError T) : ParkError :=
  ParkError.Timeout

/-- The relevant `std::io::ErrorKind` values that can sit in the
per-coroutine error slot read by `get_co_para`.  `timedOut` and `other`
are the two kinds the runtime itself stores; `wouldBlock` and `notFound`
stand for the remaining kinds of `ErrorKind`. -/
inductive ErrorKind where
  | timedOut
  | other
  | wouldBlock
  | notFound
deriving DecidableEq, Repr

/-- Coroutine handles are opaque; we model them by a numeric id. -/
abbrev Co := Nat

/-- The state of a `ParkImpl` that the park/unpark algorithms read and
write: the atomic `state` word (bit 0 = permit, bit 1 and above = the
kernel-busy / generation counter) and the single-slot `wait_co`
(`AtomicOption<CoroutineImpl>`: empty or holding the parked coroutine). -/
structure ParkState where
  state : Nat
  wait_co : Option Co
deriving DecidableEq, Repr

/-- `ParkImpl::check_park`, sequential semantics of the CAS loop:
load `state`; if bit 0 is clear return `true` (must really park) leaving
the state alone; otherwise the compare-exchange replaces `state` by
`state - 1`, clearing the permit, and returns `false`. -/
def checkPark (s : Nat) : Bool × Nat :=
  if s % 2 = 0 then (true, s) else (false, s - 1)

/-- `ParkImpl::wake_up`: `wait_co.take()`; the taken coroutine (if any) is
handed to `run_coroutine`/`schedule`.  Returns the emptied slot and the
coroutine that got scheduled. -/
def wakeUp (slot : Option Co) : Option Co × Option Co :=
  (none, slot)

/-- `ParkImpl::unpark_impl`, sequential semantics of the CAS loop:
if bit 0 of `state` is already set, return with nothing changed;
otherwise replace `state` by `state + 1` (setting the permit) and run
`wake_up`, which takes the coroutine out of `wait_co` and schedules it.
The second component is the coroutine handed to the scheduler, if any. -/
def unparkImpl (p : ParkState) : ParkState × Option Co :=
  if p.state % 2 = 1 then (p, none)
  else
    let (slot, sched) := wakeUp p.wait_co
    ({ state := p.state + 1, wait_co := slot }, sched)

/-- `n` successive `unpark_impl` calls, returning the final state. -/
def iterateUnpark : Nat → ParkState → ParkState
  | 0, p => p
  | n + 1, p => iterateUnpark n (unparkImpl p).1

/-- Outcome of one `ParkImpl::park_timeout(dur)` call in the sequential
model.  `ret r yielded final` is a normal return with result `r`, whether
the call reached `yield_with`, and the final value of `state`;
`panicked` is the `unreachable!` branch; `blocked` means the kernel
barrier would spin on other threads, which the sequential model cannot
resolve. -/
inductive ParkOutcome where
  | ret (r : Except ParkError Unit) (yielded : Bool) (final : Nat)
  | panicked
  | blocked
deriving Repr

/-- Inputs of one `park_timeout` call that the surrounding system decides:
the `state` word at entry, the `wait_kernel` flag, the `state` word
observed after the coroutine is resumed (wakers may have set the permit
bit meanwhile) and the per-coroutine error slot read by `get_co_para`
after the resume. -/
structure ParkFlow where
  state0 : Nat
  wait_kernel : Bool
  resumedState : Nat
  env : Option ErrorKind

/-- `ParkImpl::park_timeout(dur: Option<Duration>)` from `park.rs`:
store the timeout, run `check_park` (fast path: permit present means
return `Ok` without yielding), pass the kernel barrier, `yield_with`,
and on resume run `check_park` again (consuming any straggling permit),
remove the timer handle, and map the per-coroutine error slot:
`TimedOut` to `Err(Timeout)`, `Other` to `Err(Canceled)`, an empty slot
to `Ok(())`; any other kind hits `unreachable!`. -/
def parkTimeout (pf : ParkFlow) : ParkOutcome :=
  -- fast path: `if !self.check_park() { return Ok(()) }`
  if pf.state0 % 2 = 1 then
    ParkOutcome.ret (Except.ok ()) false (checkPark pf.state0).2
  else
    -- kernel barrier: spin while bit 1 is set, or clear bit 1
    if pf.wait_kernel ∧ pf.state0 / 2 % 2 = 1 then ParkOutcome.blocked
    else
      -- `yield_with(self)`; on resume the state word is `resumedState`
      let s1 := (checkPark pf.resumedState).2
      match pf.env with
      | some ErrorKind.timedOut => ParkOutcome.ret (Except.error ParkError.Timeout) true s1
      | some ErrorKind.other => ParkOutcome.ret (Except.error ParkError.Canceled) true s1
      | some _ => ParkOutcome.panicked
      | none => ParkOutcome.ret (Except.ok ()) true s1

/-! ### Theorems about Park/Unpark -/

/-- C10: for every type `T` and every `PoisonError<T>`, the
`From<PoisonError<T>>` conversion into `ParkError` yields
`ParkError::Timeout`, never `Canceled`. -/
theorem poison_error_converts_to_timeout :
    ∀ (T : Type) (e : PoisonError T),
      parkErrorFromPoison e = ParkError.Timeout ∧
      parkErrorFromPoison e ≠ ParkError.Canceled := by
  intro T e
  exact ⟨rfl, by simp [parkErrorFromPoison]⟩

/-- C2: if the permit bit (bit 0 of `state`) is set when `park_timeout` is
called, `check_park` clears it by subtracting 1 and `park_timeout`
returns `Ok(())` immediately, without ever reaching `yield_with` (the
`yielded` flag of the outcome is `false`). -/
theorem park_timeout_fast_path (pf : ParkFlow) (h : pf.state0 % 2 = 1) :
    parkTimeout pf = ParkOutcome.ret (Except.ok ()) false (pf.state0 - 1) ∧
    (pf.state0 - 1) % 2 = 0 := by
  constructor
  · simp [parkTimeout, checkPark, h]
  · omega

/-- Witness for `park_timeout_fast_path` at the concrete state word `5`
(permit set, generation bits `0b10`). -/
theorem park_timeout_fast_path_witness :
    parkTimeout ⟨5, false, 0, none⟩ =
      ParkOutcome.ret (Except.ok ()) false 4 ∧ (5 - 1) % 2 = 0 :=
  park_timeout_fast_path ⟨5, false, 0, none⟩ (by decide)

/-- C3: when `park_timeout` really parks (permit clear, kernel barrier
passed), its outcome on resume is decided by the per-coroutine error
slot: `TimedOut` gives `Err(Timeout)`, `Other` gives `Err(Canceled)`,
an empty slot gives `Ok(())`; under the precondition that the slot only
ever holds `TimedOut` or `Other`, the `unreachable!` branch is never
taken, so the call returns exactly one of the three outcomes. -/
theorem park_timeout_exclusive_outcome (pf : ParkFlow)
    (h0 : pf.state0 % 2 = 0)
    (hb : ¬(pf.wait_kernel ∧ pf.state0 / 2 % 2 = 1))
    (henv : pf.env = none ∨ pf.env = some ErrorKind.timedOut ∨
      pf.env = some ErrorKind.other) :
    parkTimeout pf ≠ ParkOutcome.panicked ∧
    (pf.env = some ErrorKind.timedOut →
      parkTimeout pf =
        ParkOutcome.ret (Except.error ParkError.Timeout) true
          (checkPark pf.resumedState).2) ∧
    (pf.env = some ErrorKind.other →
      parkTimeout pf =
        ParkOutcome.ret (Except.error ParkError.Canceled) true
          (checkPark pf.resumedState).2) ∧
    (pf.env = none →
      parkTimeout pf =
        ParkOutcome.ret (Except.ok ()) true (checkPark pf.resumedState).2) := by
  have h0' : ¬ pf.state0 % 2 = 1 := by omega
  refine ⟨?_, ?_, ?_, ?_⟩
  · rcases henv with h | h | h <;> simp [parkTimeout, h0', hb, h]
  · intro h; simp [parkTimeout, h0', hb, h]
  · intro h; simp [parkTimeout, h0', hb, h]
  · intro h; simp [parkTimeout, h0', hb, h]

/-- Witness for `park_timeout_exclusive_outcome`: a park that was woken
by the timer (`TimedOut` in the error slot) returns `Err(Timeout)`. -/
theorem park_timeout_exclusive_outcome_witness :
    parkTimeout ⟨0, false, 1, some ErrorKind.timedOut⟩ ≠ ParkOutcome.panicked ∧
    parkTimeout ⟨0, false, 1, some ErrorKind.timedOut⟩ =
      ParkOutcome.ret (Except.error ParkError.Timeout) true 0 := by
  have h := park_timeout_exclusive_outcome ⟨0, false, 1, some ErrorKind.timedOut⟩
    (by decide) (by decide) (Or.inr (Or.inl rfl))
  exact ⟨h.1, h.2.1 rfl⟩

/-- C1: on a `ParkImpl` with an empty wait-slot and a clear permit bit,
one `unpark_impl` sets the permit and schedules nothing, and any number
of further unparks before the next park leave the state unchanged with
exactly one permit recorded.  Moreover every single `unpark_impl` call
on a permit-free state either takes the waiting coroutine out of the
wait-slot and schedules it (in which case the same cycle's park epilogue
`check_park` consumes the permit, so nothing is left for the next park),
or leaves the permit bit set for the next park to consume — never both. -/
theorem unpark_idempotent_and_exclusive (p : ParkState) :
    (p.wait_co = none → p.state % 2 = 0 →
      unparkImpl p = (⟨p.state + 1, none⟩, none) ∧
      (unparkImpl p).1.state % 2 = 1 ∧
      ∀ n, iterateUnpark n (unparkImpl p).1 = (unparkImpl p).1) ∧
    (p.state % 2 = 0 →
      ((unparkImpl p).2 = p.wait_co ∧ (unparkImpl p).1.wait_co = none) ∧
      (p.wait_co = none →
        (unparkImpl p).2 = none ∧
        checkPark (unparkImpl p).1.state = (false, p.state)) ∧
      (∀ co, p.wait_co = some co →
        (unparkImpl p).2 = some co ∧
        (checkPark (unparkImpl p).1.state).2 % 2 = 0 ∧
        (checkPark (checkPark (unparkImpl p).1.state).2).1 = true)) := by
  constructor
  · intro hco hst
    have hst' : ¬ p.state % 2 = 1 := by omega
    have h1 : (p.state + 1) % 2 = 1 := by omega
    refine ⟨by simp [unparkImpl, wakeUp, hst', hco], ?_, ?_⟩
    · simp [unparkImpl, wakeUp, hst', hco, h1]
    · intro n
      induction n with
      | zero => rfl
      | succ k ih =>
        have hpost : (unparkImpl (unparkImpl p).1).1 = (unparkImpl p).1 := by
          simp [unparkImpl, wakeUp, hst', hco, h1]
        calc iterateUnpark (k + 1) (unparkImpl p).1
            = iterateUnpark k (unparkImpl (unparkImpl p).1).1 := rfl
          _ = iterateUnpark k (unparkImpl p).1 := by rw [hpost]
          _ = (unparkImpl p).1 := ih
  · intro hst
    have hst' : ¬ p.state % 2 = 1 := by omega
    have h1 : (p.state + 1) % 2 = 1 := by omega
    refine ⟨⟨by simp [unparkImpl, wakeUp, hst'], by simp [unparkImpl, wakeUp, hst']⟩, ?_, ?_⟩
    · intro hco
      refine ⟨by simp [unparkImpl, wakeUp, hst', hco], ?_⟩
      simp [unparkImpl, wakeUp, hst', checkPark, h1]
    · intro co hco
      refine ⟨by simp [unparkImpl, wakeUp, hst', hco], ?_, ?_⟩
      · simp [unparkImpl, wakeUp, hst', checkPark, h1]
        omega
      · simp [unparkImpl, wakeUp, hst', checkPark, h1, hst]

/-- Witness for `unpark_idempotent_and_exclusive`: an unpark on a parked
coroutine (state `0`, slot holding coroutine `7`) schedules it, and the
epilogue leaves no permit; three unparks on an empty park leave one
permit. -/
theorem unpark_idempotent_and_exclusive_witness :
    ((unparkImpl ⟨0, some 7⟩).2 = some 7 ∧
      (checkPark (checkPark (unparkImpl ⟨0, some 7⟩).1.state).2).1 = true) ∧
    (iterateUnpark 3 (unparkImpl ⟨0, none⟩).1 = (unparkImpl ⟨0, none⟩).1 ∧
      (unparkImpl ⟨0, none⟩).1.state % 2 = 1) := by
  have ha := (unpark_idempotent_and_exclusive ⟨0, some 7⟩).2 rfl
  have hb := (unpark_idempotent_and_exclusive ⟨0, none⟩).1 rfl rfl
  exact ⟨⟨(ha.2.2 7 rfl).1, (ha.2.2 7 rfl).2.2⟩, ⟨hb.2.2 3, hb.2.1⟩⟩

/-- C7: `check_park` touches only the permit bit — with bit 0 clear it
returns `true` and leaves the state word unchanged; with bit 0 set it
returns `false` after subtracting exactly 1, clearing bit 0 while
leaving every higher bit (the quotient by 2, which holds the kernel-busy
and generation bits `0x02` and above) unchanged.  Symmetrically
`unpark_impl` adds exactly 1, also preserving all higher bits. -/
theorem check_park_unpark_frame (s : Nat) (p : ParkState) :
    (s % 2 = 0 → checkPark s = (true, s)) ∧
    (s % 2 = 1 →
      checkPark s = (false, s - 1) ∧ (s - 1) % 2 = 0 ∧ (s - 1) / 2 = s / 2) ∧
    (p.state % 2 = 0 →
      (unparkImpl p).1.state = p.state + 1 ∧
      (p.state + 1) % 2 = 1 ∧ (p.state + 1) / 2 = p.state / 2) := by
  refine ⟨?_, ?_, ?_⟩
  · intro h; simp [checkPark, h]
  · intro h
    have h' : ¬ s % 2 = 0 := by omega
    exact ⟨by simp [checkPark, h'], by omega, by omega⟩
  · intro h
    have h' : ¬ p.state % 2 = 1 := by omega
    exact ⟨by simp [unparkImpl, wakeUp, h'], by omega, by omega⟩

/-- Witness for `check_park_unpark_frame` at state word `7` (permit set,
higher bits `0b11`) and at an unpark from state word `6`. -/
theorem check_park_unpark_frame_witness :
    (checkPark 7 = (false, 6) ∧ 6 / 2 = 7 / 2) ∧
    ((unparkImpl ⟨6, none⟩).1.state = 7 ∧ 7 / 2 = 6 / 2) := by
  have h := check_park_unpark_frame 7 ⟨6, none⟩
  exact ⟨⟨(h.2.1 rfl).1, (h.2.1 rfl).2.2⟩, ⟨(h.2.2 rfl).1, (h.2.2 rfl).2.2⟩⟩

/-! ## HTTP cookie SameSite handling (`src/std/http/cookie.rs`) -/

/-- `pub type SameSite = i32` in `cookie.rs`. -/
abbrev SameSite := Int

/-- `pub const SameSiteDefaultMode: SameSite = 1` -/
def SameSiteDefaultMode : SameSite := 1

/-- `pub const SameSiteLaxMode: SameSite = 1` -/
def SameSiteLaxMode : SameSite := 1

/-- `pub const SameSiteStrictMode: SameSite = 1` -/
def SameSiteStrictMode : SameSite := 1

/-- `pub const SameSiteNoneMode: SameSite = 1` -/
def SameSiteNoneMode : SameSite := 1

/-- The fields of `Cookie` relevant to the SameSite serialization. -/
structure Cookie where
  name : String
  value : String
  same_site : SameSite

/-- The `match self.same_site { ... }` block at the end of
`Cookie::string`.  Rust constant patterns compare by value and the first
matching arm wins, so the arm order
`SameSiteDefaultMode, SameSiteNoneMode, SameSiteLaxMode,
SameSiteStrictMode, _` becomes a chain of equality tests. -/
def sameSiteAttr (s : SameSite) : String :=
  if s = SameSiteDefaultMode then ""
  else if s = SameSiteNoneMode then "; SameSite=None"
  else if s = SameSiteLaxMode then "; SameSite=Lax"
  else if s = SameSiteStrictMode then "; SameSite=Strict"
  else ""

/-- The part of `Cookie::string`'s output contributed by `same_site`. -/
def Cookie.sameSitePart (c : Cookie) : String :=
  sameSiteAttr c.same_site

/-- The `"samesite"` attribute arm of `read_set_cookies`: lower-case the
value and map `lax`/`strict`/`none` to the respective constants, anything
else to `SameSiteDefaultMode`. -/
def parseSameSite (v : String) : SameSite :=
  let lowerVal := v.toLower
  if lowerVal = "lax" then SameSiteLaxMode
  else if lowerVal = "strict" then SameSiteStrictMode
  else if lowerVal = "none" then SameSiteNoneMode
  else SameSiteDefaultMode

/-- C9: the four SameSite constants are all equal to `1`; hence for every
cookie whose `same_site` is `1` the match in `Cookie::string` takes the
`SameSiteDefaultMode` arm (emitting nothing), and in fact the
serialization never emits any `SameSite=Lax` / `SameSite=Strict` /
`SameSite=None` attribute, even for a cookie whose `same_site` was
parsed from one of those header values. -/
theorem same_site_constants_all_one :
    (SameSiteDefaultMode = 1 ∧ SameSiteLaxMode = 1 ∧
      SameSiteStrictMode = 1 ∧ SameSiteNoneMode = 1) ∧
    (∀ c : Cookie, c.same_site = 1 → c.sameSitePart = "") ∧
    (∀ c : Cookie, c.sameSitePart = "") ∧
    (∀ v : String, sameSiteAttr (parseSameSite v) = "") := by
  have key : ∀ s : SameSite, sameSiteAttr s = "" := by
    intro s
    by_cases h : s = 1 <;>
      simp [sameSiteAttr, SameSiteDefaultMode, SameSiteNoneMode,
        SameSiteLaxMode, SameSiteStrictMode, h]
  exact ⟨⟨rfl, rfl, rfl, rfl⟩, fun c _ => key c.same_site,
    fun c => key c.same_site, fun v => key (parseSameSite v)⟩

/-- Witness for `same_site_constants_all_one`: a cookie parsed from
`SameSite=Lax` still serializes without a SameSite attribute. -/
theorem same_site_constants_all_one_witness :
    Cookie.sameSitePart ⟨"id", "7", parseSameSite "Lax"⟩ = "" ∧
    parseSameSite "Lax" = 1 := by
  have h := same_site_constants_all_one
  refine ⟨h.2.2.1 ⟨"id", "7", parseSameSite "Lax"⟩, ?_⟩
  simp [parseSameSite, SameSiteLaxMode, SameSiteStrictMode, SameSiteNoneMode,
    SameSiteDefaultMode]

/-! ## spsc queue (`src/std/queue/spsc.rs`), sequential semantics -/

/-- `usize` is 64 bits wide: the queue indices wrap at `2 ^ 64`. -/
def U64 : Nat := 2 ^ 64

theorem U64_eq : U64 = 18446744073709551616 := by norm_num [U64]

/-- Sequential state of `spsc::Queue<T>`: the values stored in the chain
of block nodes that were pushed and not yet popped (oldest first), and
the `push_index` / `pop_index` counters, which the source advances with
`wrapping_add(1)`.  The block-node chain (`BlockNode`, not under `src/`)
is memory layout only: `set`/`get` at the running indices store and
retrieve the values in order, which the list models directly. -/
structure SpscQueue (T : Type) where
  buf : List T
  push_index : Nat
  pop_index : Nat

/-- `Queue::new()`: empty storage, both indices `0`. -/
def spscNew (T : Type) : SpscQueue T := ⟨[], 0, 0⟩

/-- `Queue::push`: store the value at `push_index`, then commit
`push_index.wrapping_add(1)`. -/
def spscPush (q : SpscQueue T) (v : T) : SpscQueue T :=
  { buf := q.buf ++ [v]
    push_index := (q.push_index + 1) % U64
    pop_index := q.pop_index }

/-- `Queue::pop`: if `pop_index == push_index` return `None`; otherwise
read the value stored at `pop_index` and commit
`pop_index.wrapping_add(1)`.  (The `[]` case is unreachable when the
indices differ under the queue invariant; the source would read the
block storage there.) -/
def spscPop (q : SpscQueue T) : Option T × SpscQueue T :=
  if q.pop_index = q.push_index then (none, q)
  else
    match q.buf with
    | [] => (none, q)
    | v :: rest => (some v, ⟨rest, q.push_index, (q.pop_index + 1) % U64⟩)

/-- `Queue::size`: `push_index.wrapping_sub(pop_index)` (both counters
are below `2 ^ 64`). -/
def spscSize (q : SpscQueue T) : Nat :=
  (q.push_index + U64 - q.pop_index) % U64

/-- One sequential operation on the queue. -/
inductive SpscOp (T : Type) where
  | push (v : T)
  | pop

/-- Number of pushes in an operation sequence. -/
def countPushes : List (SpscOp T) → Nat
  | [] => 0
  | SpscOp.push _ :: ops => countPushes ops + 1
  | SpscOp.pop :: ops => countPushes ops

/-- Number of successful pops in a result list. -/
def countSome : List (Option T) → Nat
  | [] => 0
  | some _ :: rs => countSome rs + 1
  | none :: rs => countSome rs

@[simp]
theorem countPushes_nil : countPushes ([] : List (SpscOp T)) = 0 := rfl

@[simp]
theorem countPushes_cons_push (v : T) (ops : List (SpscOp T)) :
    countPushes (SpscOp.push v :: ops) = countPushes ops + 1 := rfl

@[simp]
theorem countPushes_cons_pop (ops : List (SpscOp T)) :
    countPushes (SpscOp.pop :: ops) = countPushes ops := rfl

@[simp]
theorem countSome_nil : countSome ([] : List (Option T)) = 0 := rfl

@[simp]
theorem countSome_cons_some (v : T) (rs : List (Option T)) :
    countSome (some v :: rs) = countSome rs + 1 := rfl

@[simp]
theorem countSome_cons_none (rs : List (Option T)) :
    countSome (none :: rs) = countSome rs := rfl

/-- Run a sequence of operations on the source queue, collecting the pop
results in order. -/
def spscRun : List (SpscOp T) → SpscQueue T → SpscQueue T × List (Option T)
  | [], q => (q, [])
  | SpscOp.push v :: ops, q => spscRun ops (spscPush q v)
  | SpscOp.pop :: ops, q =>
    let (r, q') := spscPop q
    let (qf, rs) := spscRun ops q'
    (qf, r :: rs)

/-- Reference model written from the claim's words (for the refinement):
an unbounded FIFO queue as a plain list, pop returning `none` exactly
when every pushed value has been popped and otherwise the oldest
not-yet-popped value. -/
def fifoRun : List (SpscOp T) → List T → List T × List (Option T)
  | [], l => (l, [])
  | SpscOp.push v :: ops, l => fifoRun ops (l ++ [v])
  | SpscOp.pop :: ops, l =>
    match l with
    | [] =>
      let (lf, rs) := fifoRun ops []
      (lf, none :: rs)
    | v :: r =>
      let (lf, rs) := fifoRun ops r
      (lf, some v :: rs)

/-- Abstraction relation between a source queue state and the FIFO list:
the buffer holds exactly the pending values and the two indices are the
push and pop counts modulo `2 ^ 64`. -/
def SpscAbs (q : SpscQueue T) (l : List T) : Prop :=
  ∃ pushes pops : Nat, pops ≤ pushes ∧ pushes - pops = l.length ∧
    q.buf = l ∧ q.push_index = pushes % U64 ∧ q.pop_index = pops % U64

theorem spscAbs_new (T : Type) : SpscAbs (spscNew T) [] :=
  ⟨0, 0, by simp [spscNew]⟩

/-- Refinement step: as long as fewer than `2 ^ 64` values are pending,
the source queue and the FIFO model produce the same pop results and
stay related. -/
theorem spscRun_refines (ops : List (SpscOp T)) :
    ∀ (q : SpscQueue T) (l : List T), SpscAbs q l →
      l.length + countPushes ops < U64 →
      (spscRun ops q).2 = (fifoRun ops l).2 ∧
      SpscAbs (spscRun ops q).1 (fifoRun ops l).1 := by
  induction ops with
  | nil => intro q l hR _; exact ⟨rfl, hR⟩
  | cons op ops ih =>
    intro q l hR hb
    obtain ⟨pushes, pops, hle, hlen, hbuf, hpushi, hpopi⟩ := hR
    cases op with
    | push v =>
      have hR' : SpscAbs (spscPush q v) (l ++ [v]) := by
        refine ⟨pushes + 1, pops, by omega, by simp; omega, ?_, ?_, ?_⟩
        · simp [spscPush, hbuf]
        · simp [spscPush, hpushi, Nat.add_mod]
        · simp [spscPush, hpopi]
      have hb' : (l ++ [v]).length + countPushes ops < U64 := by
        simp at hb ⊢; omega
      simpa [spscRun, fifoRun] using ih (spscPush q v) (l ++ [v]) hR' hb'
    | pop =>
      cases l with
      | nil =>
        have heq : pushes = pops := by simp at hlen; omega
        have hpop : spscPop q = (none, q) := by
          simp [spscPop, hpushi, hpopi, heq]
        have := ih q [] ⟨pushes, pops, hle, hlen, hbuf, hpushi, hpopi⟩
          (by simp at hb ⊢; omega)
        simp only [spscRun, fifoRun, hpop]
        exact ⟨by simp [this.1], this.2⟩
      | cons v r =>
        have hne : q.pop_index ≠ q.push_index := by
          rw [hpushi, hpopi]
          intro hcon
          simp at hlen hb
          rw [U64_eq] at hcon hb
          omega
        have hpop : spscPop q =
            (some v, ⟨r, q.push_index, (q.pop_index + 1) % U64⟩) := by
          simp [spscPop, hne, hbuf]
        have hR' : SpscAbs (⟨r, q.push_index, (q.pop_index + 1) % U64⟩ :
            SpscQueue T) r := by
          refine ⟨pushes, pops + 1, by simp at hlen; omega, by simp at hlen; omega,
            rfl, hpushi, ?_⟩
          simp [hpopi, Nat.add_mod]
        have hb' : r.length + countPushes ops < U64 := by
          simp at hb ⊢; omega
        have := ih _ r hR' hb'
        simp only [spscRun, fifoRun, hpop]
        exact ⟨by simp [this.1], this.2⟩

/-- Pending count of the FIFO model: pushes minus successful pops. -/
theorem fifoRun_length (ops : List (SpscOp T)) :
    ∀ l : List T,
      countSome (fifoRun ops l).2 ≤ l.length + countPushes ops ∧
      (fifoRun ops l).1.length =
        l.length + countPushes ops - countSome (fifoRun ops l).2 := by
  induction ops with
  | nil => intro l; simp [fifoRun, countSome, countPushes]
  | cons op ops ih =>
    intro l
    cases op with
    | push v =>
      have := ih (l ++ [v])
      simpa [fifoRun, countPushes] using by constructor <;> [exact le_trans this.1 (by simp; omega); (rw [this.2]; simp; omega)]
    | pop =>
      cases l with
      | nil =>
        have := ih []
        simp only [fifoRun, countPushes, countSome]
        exact ⟨by simpa using this.1, by simpa using this.2⟩
      | cons v r =>
        have := ih r
        simp only [fifoRun, countPushes, countSome]
        constructor
        · simp; omega
        · simp at this ⊢; omega

/-- C8: used sequentially, `spsc::Queue<T>` behaves as the FIFO queue
(for any operation sequence with fewer than `2 ^ 64` pushes — the width
of the wrapping indices): every pop returns exactly what the FIFO model
returns (`None` iff every pushed value was already popped, otherwise the
oldest pending value), the remaining buffer is the pending list, and
`size()` equals the number of pushes minus the number of successful
pops. -/
theorem spsc_sequential_fifo (T : Type) (ops : List (SpscOp T))
    (hb : countPushes ops < U64) :
    (spscRun ops (spscNew T)).2 = (fifoRun ops []).2 ∧
    (spscRun ops (spscNew T)).1.buf = (fifoRun ops []).1 ∧
    spscSize (spscRun ops (spscNew T)).1 =
      countPushes ops - countSome (spscRun ops (spscNew T)).2 := by
  have href := spscRun_refines ops (spscNew T) [] (spscAbs_new T) (by simpa using hb)
  obtain ⟨pushes, pops, hle, hlen, hbuf, hpushi, hpopi⟩ := href.2
  have hflen := fifoRun_length ops ([] : List T)
  refine ⟨href.1, by rw [hbuf], ?_⟩
  have hsz : spscSize (spscRun ops (spscNew T)).1 = pushes - pops := by
    simp only [spscSize, hpushi, hpopi]
    have hlt : pushes - pops < U64 := by
      have h1 : (fifoRun ops ([] : List T)).1.length ≤ countPushes ops := by
        simp at hflen; omega
      omega
    rw [U64_eq] at *
    omega
  rw [hsz, href.1, hlen]
  simp at hflen
  omega

/-- Witness for `spsc_sequential_fifo`: push 1, push 2, pop, pop, pop. -/
theorem spsc_sequential_fifo_witness :
    (spscRun [SpscOp.push 1, SpscOp.push 2, SpscOp.pop, SpscOp.pop, SpscOp.pop]
        (spscNew Nat)).2 =
      [some 1, some 2, none] ∧
    spscSize (spscRun [SpscOp.push 1, SpscOp.push 2, SpscOp.pop, SpscOp.pop,
        SpscOp.pop] (spscNew Nat)).1 = 0 := by
  have h := spsc_sequential_fifo Nat
    [SpscOp.push 1, SpscOp.push 2, SpscOp.pop, SpscOp.pop, SpscOp.pop]
    (by rw [U64_eq]; simp [countPushes])
  refine ⟨?_, ?_⟩
  · rw [h.1]; rfl
  · rw [h.2.2, h.1]; rfl

/-! ## Timeout list (`src/timeout_list.rs`) -/

def NANOS_PER_SEC : Nat := 1000000000

def HASH_CAP : Nat := 1024

/-- `std::time::Duration`: a (seconds, sub-second nanoseconds) pair. -/
structure Duration where
  secs : Nat
  nanos : Nat

/-- `u64::saturating_mul`. -/
def satMul (a b : Nat) : Nat := min (a * b) (U64 - 1)

/-- `u64::saturating_add`. -/
def satAdd (a b : Nat) : Nat := min (a + b) (U64 - 1)

/-- `dur_to_ns`:
`dur.as_secs().saturating_mul(NANOS_PER_SEC).saturating_add(dur.subsec_nanos())`. -/
def dur_to_ns (d : Duration) : Nat :=
  satAdd (satMul d.secs NANOS_PER_SEC) d.nanos

/-- `TimeoutData<T>`: the absolute expiry (ns on the monotonic clock)
and the payload. -/
structure TimeoutData (T : Type) where
  time : Nat
  data : T

/-- `TimeoutQueueWrapper<T>`: an interval list (FIFO of `TimeoutData`)
together with its `in_use` counter.  The `Arc` targets are modelled by
an id-indexed store, so heap entries and the interval map can share one
wrapper. -/
structure TimeoutQueueWrapper (T : Type) where
  queue : List (TimeoutData T)
  in_use : Nat

/-- Modelled from the spec: `mpsc_list_v1::Queue::push` (the interval
list implementation is not under `src/`).  The spec: append the entry to
the tail — new entries always expire last within their interval — and
return `is_head = true` iff the list was empty. -/
def listPush (q : List (TimeoutData T)) (e : TimeoutData T) :
    List (TimeoutData T) × Bool :=
  (q ++ [e], q.isEmpty)

/-- Modelled from the spec: `mpsc_list_v1::Queue::pop_if` pops the front
entry when it satisfies the predicate (the timer drains the list "while
front.expiry ≤ now"). -/
def listPopIf (q : List (TimeoutData T)) (p : TimeoutData T → Bool) :
    Option (TimeoutData T) × List (TimeoutData T) :=
  match q with
  | [] => (none, [])
  | e :: r => if p e then (some e, r) else (none, e :: r)

/-- Modelled from the spec: `mpsc_list_v1::Queue::peek` returns the
front entry without removing it. -/
def listPeek (q : List (TimeoutData T)) : Option (TimeoutData T) :=
  q.head?

/-- The `while let Some(timeout) = self.list.inner.pop_if(&p)` loop of
`IntervalEntry::pop_timeout` with `p = |v| v.time <= now`: collect the
drained payloads in order and return the remaining queue. -/
def popTimeoutLoop (nowv : Nat) : List (TimeoutData T) →
    List T × List (TimeoutData T)
  | [] => ([], [])
  | e :: r =>
    if e.time ≤ nowv then
      let (fs, rem) := popTimeoutLoop nowv r
      (e.data :: fs, rem)
    else ([], e :: r)

/-- `IntervalEntry::pop_timeout`: drain the expired entries, feeding the
payloads to the callback (collected in order), then `peek` for the next
expiry.  Returns (fired payloads, remaining queue, next expiry). -/
def popTimeout (nowv : Nat) (q : List (TimeoutData T)) :
    List T × List (TimeoutData T) × Option Nat :=
  let (fs, rem) := popTimeoutLoop nowv q
  (fs, rem, (listPeek rem).map (·.time))

/-- `IntervalEntry`: a `timer_bh` element — the head expiry, the
interval, and (the id of) the interval list it points at. -/
structure IntervalEntry where
  time : Nat
  interval : Nat
  listId : Nat
deriving DecidableEq, Repr

/-- `BinaryHeap::pop` under the reversed `Ord` of `IntervalEntry` (a
min-heap on `time`): remove an entry of minimal `time` and return it
with the rest of the heap (ties resolved towards the front of the
model's list, as some tie order — `BinaryHeap` leaves it unspecified). -/
def heapPopMin : List IntervalEntry → Option (IntervalEntry × List IntervalEntry)
  | [] => none
  | e :: r =>
    match heapPopMin r with
    | none => some (e, [])
    | some (m, rest) => if e.time ≤ m.time then some (e, r) else some (m, e :: rest)

/-- `TimeOutList<T>`: the interval map (`RwLock<HashMap<u64, IntervalList>>`,
here interval → wrapper id), the binary heap (`Mutex<BinaryHeap>`), and
the id-indexed store standing for the `Arc<TimeoutQueueWrapper>` targets. -/
structure TimeOutList (T : Type) where
  lists : List (Nat × TimeoutQueueWrapper T)
  interval_map : List (Nat × Nat)
  timer_bh : List IntervalEntry
  next_id : Nat

/-- Replace the wrapper stored under `id`. -/
def updateStore (ls : List (Nat × TimeoutQueueWrapper T)) (id : Nat)
    (w : TimeoutQueueWrapper T) : List (Nat × TimeoutQueueWrapper T) :=
  ls.map (fun p => if p.1 = id then (id, w) else p)

/-- `HashMap::remove(&interval)`. -/
def removeKey (m : List (Nat × Nat)) (k : Nat) : List (Nat × Nat) :=
  m.filter (fun p => p.1 ≠ k)

/-- `TimeOutList::install_timer_bh`:
`if entry.list.in_use.fetch_add(1, AcqRel) == 0 { timer_bh.lock().push(entry) }` —
increment the wrapper's `in_use` and push the heap entry only when the
previous value was `0`. -/
def install_timer_bh (s : TimeOutList T) (e : IntervalEntry) : TimeOutList T :=
  match List.lookup e.listId s.lists with
  | none => s -- unreachable: an entry's Arc always targets a live wrapper
  | some w =>
    let s1 := { s with lists := (updateStore s.lists e.listId
                  { w with in_use := w.in_use + 1 }) }
    if w.in_use = 0 then { s1 with timer_bh := s1.timer_bh ++ [e] } else s1

/-- `TimeOutList::add_timer(dur, data)`: compute
`time = now() + dur_to_ns(dur)` (a `u64` addition, hence the wrap),
push the entry at the tail of the interval list for `dur_to_ns(dur)` —
creating the list under the write lock when absent (the sequential model
has nothing to recheck) — and when the push made the entry the head,
install a heap entry.  Returns the new state, `is_head`, and the stored
expiry (the observable part of the returned handle). -/
def add_timer (s : TimeOutList T) (nowv : Nat) (dur : Duration) (data : T) :
    TimeOutList T × Bool × Nat :=
  let interval := dur_to_ns dur
  let time := (nowv + interval) % U64
  let timeout : TimeoutData T := ⟨time, data⟩
  match List.lookup interval s.interval_map with
  | some id =>
    match List.lookup id s.lists with
    | none => (s, false, time) -- unreachable: mapped ids are always live
    | some w =>
      let (q2, is_head) := listPush w.queue timeout
      let s1 := { s with lists := updateStore s.lists id { w with queue := q2 } }
      if is_head then
        (install_timer_bh s1 ⟨time, interval, id⟩, is_head, time)
      else (s1, is_head, time)
  | none =>
    let id := s.next_id
    let s1 := { s with
                lists := s.lists ++ [(id, ⟨[timeout], 0⟩)],
                interval_map := s.interval_map ++ [(interval, id)],
                next_id := id + 1 }
    (install_timer_bh s1 ⟨time, interval, id⟩, true, time)

/-- Result of one iteration of the `schedule_timer` loop: either the
function returns (`done`), or it processed one heap entry, fired some
payloads and loops again (`next`). -/
inductive SchedStep (T : Type) where
  | done (ret : Option Nat) (s : TimeOutList T)
  | next (fired : List T) (s : TimeOutList T)

/-- One iteration of `TimeOutList::schedule_timer`:
peek the heap (empty → return `None`; head not expired → return
`Some(head.time - now)` without popping); otherwise pop the head, store
`0` into its list's `in_use`, run `pop_timeout`, and either re-push the
entry keyed by the new front expiry when `in_use.fetch_add(1) == 0`, or
— when the list drained empty — remove the interval from the map only
if the map holds more than `HASH_CAP` entries. -/
def schedule_timer_step (s : TimeOutList T) (nowv : Nat) : SchedStep T :=
  match heapPopMin s.timer_bh with
  | none => SchedStep.done none s
  | some (e, rest) =>
    if nowv < e.time then SchedStep.done (some (e.time - nowv)) s
    else
      match List.lookup e.listId s.lists with
      | none => SchedStep.next [] { s with timer_bh := rest } -- unreachable
      | some w =>
        -- `let entry = timer_bh.pop().unwrap(); entry.list.in_use.store(0)`
        let (fired, rem, nextT) := popTimeout nowv w.queue
        let s2 := { s with
                    timer_bh := rest,
                    lists := updateStore s.lists e.listId ⟨rem, 0⟩ }
        match nextT with
        | some t =>
          -- `if entry.list.in_use.fetch_add(1, AcqRel) == 0 { re-push }`
          match List.lookup e.listId s2.lists with
          | none => SchedStep.next fired s2 -- unreachable
          | some w2 =>
            let s3 := { s2 with lists := (updateStore s2.lists e.listId
                          { w2 with in_use := w2.in_use + 1 }) }
            if w2.in_use = 0 then
              SchedStep.next fired
                { s3 with timer_bh := s3.timer_bh ++ [⟨t, e.interval, e.listId⟩] }
            else SchedStep.next fired s3
        | none =>
          -- under the write lock: recheck emptiness, maybe remove the map entry
          if rem.isEmpty then
            if HASH_CAP < s2.interval_map.length then
              SchedStep.next fired
                { s2 with interval_map := removeKey s2.interval_map e.interval }
            else SchedStep.next fired s2
          else
            -- `else if in_use.fetch_add(1) == 0 { re-push by the peeked time }`
            -- (never reached sequentially: `nextT = none` forces `rem = []`)
            match List.lookup e.listId s2.lists with
            | none => SchedStep.next fired s2
            | some w2 =>
              let s3 := { s2 with lists := (updateStore s2.lists e.listId
                            { w2 with in_use := w2.in_use + 1 }) }
              if w2.in_use = 0 then
                SchedStep.next fired
                  { s3 with timer_bh := (s3.timer_bh ++
                      [⟨((listPeek rem).map (·.time)).getD 0, e.interval, e.listId⟩]) }
              else SchedStep.next fired s3

/-- Number of heap entries that are already expired at `nowv`; each
`next` iteration of the loop removes exactly one of them, so this
bounds the iteration count. -/
def countLE (h : List IntervalEntry) (nowv : Nat) : Nat :=
  (h.filter (fun e => e.time ≤ nowv)).length

/-- The `loop { ... }` of `schedule_timer`, with enough fuel to cover
every expired heap entry.  Accumulates the payloads handed to `f`. -/
def schedule_timer_loop : Nat → TimeOutList T → Nat → List T →
    List T × Option Nat × TimeOutList T
  | 0, s, _, acc => (acc, none, s)
  | fuel + 1, s, nowv, acc =>
    match schedule_timer_step s nowv with
    | SchedStep.done ret s1 => (acc, ret, s1)
    | SchedStep.next fired s1 => schedule_timer_loop fuel s1 nowv (acc ++ fired)

/-- `TimeOutList::schedule_timer(now, f)`: run the loop; the fuel
`countLE + 1` is shown sufficient below.  Returns (payloads handed to
`f` in order, returned `Option<u64>`, final state). -/
def schedule_timer (s : TimeOutList T) (nowv : Nat) :
    List T × Option Nat × TimeOutList T :=
  schedule_timer_loop (countLE s.timer_bh nowv + 1) s nowv []

/-! ### Lemmas about the timeout-list model -/

theorem popTimeoutLoop_eq (nowv : Nat) (q : List (TimeoutData T)) :
    popTimeoutLoop nowv q =
      ((q.takeWhile fun e => decide (e.time ≤ nowv)).map (·.data),
        q.dropWhile fun e => decide (e.time ≤ nowv)) := by
  induction q with
  | nil => rfl
  | cons e r ih =>
    by_cases h : e.time ≤ nowv
    · simp [popTimeoutLoop, h, List.takeWhile_cons, List.dropWhile_cons, ih]
    · simp [popTimeoutLoop, h, List.takeWhile_cons, List.dropWhile_cons]

theorem popTimeoutLoop_rem_head (nowv : Nat) (q : List (TimeoutData T)) :
    ∀ e2, (popTimeoutLoop nowv q).2.head? = some e2 → nowv < e2.time := by
  induction q with
  | nil => intro e2 h; simp [popTimeoutLoop] at h
  | cons e r ih =>
    intro e2 h
    by_cases hle : e.time ≤ nowv
    · simp [popTimeoutLoop, hle] at h
      exact ih e2 h
    · simp [popTimeoutLoop, hle] at h
      subst h
      omega

theorem heapPopMin_none_iff (h : List IntervalEntry) :
    heapPopMin h = none ↔ h = [] := by
  cases h with
  | nil => simp [heapPopMin]
  | cons e r =>
    simp only [heapPopMin]
    cases hr : heapPopMin r with
    | none => simp
    | some p =>
      obtain ⟨m, rest⟩ := p
      by_cases hm : e.time ≤ m.time <;> simp [hm]

theorem heapPopMin_perm (h : List IntervalEntry) :
    ∀ e rest, heapPopMin h = some (e, rest) → h.Perm (e :: rest) := by
  induction h with
  | nil => intro e rest h; simp [heapPopMin] at h
  | cons y r ih =>
    intro e rest h
    simp only [heapPopMin] at h
    cases hr : heapPopMin r with
    | none =>
      rw [hr] at h
      obtain rfl : r = [] := (heapPopMin_none_iff r).mp hr
      simp at h
      obtain ⟨rfl, rfl⟩ := h
      exact List.Perm.refl _
    | some p =>
      obtain ⟨m, rest2⟩ := p
      rw [hr] at h
      have hperm := ih m rest2 hr
      by_cases hm : y.time ≤ m.time
      · simp [hm] at h
        obtain ⟨rfl, rfl⟩ := h
        exact List.Perm.refl _
      · simp [hm] at h
        obtain ⟨rfl, rfl⟩ := h
        exact List.Perm.trans (List.Perm.cons y hperm) (List.Perm.swap m y rest2)

theorem heapPopMin_le (h : List IntervalEntry) :
    ∀ e rest, heapPopMin h = some (e, rest) →
      ∀ x ∈ h, e.time ≤ x.time := by
  induction h with
  | nil => intro e rest h; simp [heapPopMin] at h
  | cons y r ih =>
    intro e rest h x hx
    simp only [heapPopMin] at h
    cases hr : heapPopMin r with
    | none =>
      rw [hr] at h
      obtain rfl : r = [] := (heapPopMin_none_iff r).mp hr
      simp at h hx
      obtain ⟨rfl, -⟩ := h
      subst hx
      exact le_refl _
    | some p =>
      obtain ⟨m, rest2⟩ := p
      rw [hr] at h
      have hmin := ih m rest2 hr
      rw [List.mem_cons] at hx
      by_cases hm : y.time ≤ m.time
      · simp [hm] at h
        obtain ⟨rfl, rfl⟩ := h
        rcases hx with rfl | hx
        · exact le_refl _
        · exact le_trans hm (hmin x hx)
      · simp [hm] at h
        obtain ⟨rfl, rfl⟩ := h
        rcases hx with rfl | hx
        · omega
        · exact hmin x hx

theorem countLE_perm {h h2 : List IntervalEntry} (hp : h.Perm h2) (n : Nat) :
    countLE h n = countLE h2 n :=
  (hp.filter _).length_eq

theorem countLE_cons_le {e : IntervalEntry} {rest : List IntervalEntry} {n : Nat}
    (h : e.time ≤ n) : countLE (e :: rest) n = countLE rest n + 1 := by
  simp [countLE, h]

theorem countLE_append (h1 h2 : List IntervalEntry) (n : Nat) :
    countLE (h1 ++ h2) n = countLE h1 n + countLE h2 n := by
  simp [countLE]

theorem countLE_single_gt {x : IntervalEntry} {n : Nat} (h : n < x.time) :
    countLE [x] n = 0 := by
  simp [countLE]; omega

theorem lookup_updateStore (ls : List (Nat × TimeoutQueueWrapper T)) (id : Nat)
    (w : TimeoutQueueWrapper T) :
    List.lookup id (updateStore ls id w) = (List.lookup id ls).map (fun _ => w) := by
  induction ls with
  | nil => rfl
  | cons p rest ih =>
    obtain ⟨k, v⟩ := p
    by_cases hk : k = id
    · subst hk
      simp only [updateStore, List.map_cons, eq_self_iff_true, if_true]
      simp [List.lookup]
    · simp only [updateStore, List.map_cons, if_neg hk]
      have hne : (id == k) = false := by simp; omega
      simp only [List.lookup, hne]
      simpa [updateStore] using ih

theorem updateStore_updateStore (ls : List (Nat × TimeoutQueueWrapper T))
    (id : Nat) (w1 w2 : TimeoutQueueWrapper T) :
    updateStore (updateStore ls id w1) id w2 = updateStore ls id w2 := by
  induction ls with
  | nil => rfl
  | cons p rest ih =>
    obtain ⟨k, v⟩ := p
    by_cases hk : k = id <;> simp [updateStore, hk] <;>
      simpa [updateStore] using ih

/-- Normal form of one expired iteration of `schedule_timer`: pop the
minimal heap entry, store `0` into the list's `in_use`, drain the
expired prefix; then either re-push keyed by the new front (list left
non-empty: the `fetch_add` from the freshly stored `0` wins) or, for a
drained list, remove the interval from the map only when the map is
larger than `HASH_CAP`. -/
theorem schedule_timer_step_expired (s : TimeOutList T) (nowv : Nat)
    (e : IntervalEntry) (rest : List IntervalEntry) (w : TimeoutQueueWrapper T)
    (hpop : heapPopMin s.timer_bh = some (e, rest))
    (hle : e.time ≤ nowv)
    (hw : List.lookup e.listId s.lists = some w) :
    schedule_timer_step s nowv =
      match (popTimeoutLoop nowv w.queue).2.head? with
      | some e2 =>
        SchedStep.next (popTimeoutLoop nowv w.queue).1
          { s with
            timer_bh := rest ++ [⟨e2.time, e.interval, e.listId⟩],
            lists := updateStore s.lists e.listId ⟨(popTimeoutLoop nowv w.queue).2, 1⟩ }
      | none =>
        SchedStep.next (popTimeoutLoop nowv w.queue).1
          (if HASH_CAP < s.interval_map.length then
            { s with
              timer_bh := rest,
              lists := updateStore s.lists e.listId ⟨[], 0⟩,
              interval_map := removeKey s.interval_map e.interval }
          else
            { s with
              timer_bh := rest,
              lists := updateStore s.lists e.listId ⟨[], 0⟩ }) := by
  have hnlt : ¬ nowv < e.time := by omega
  rcases hq : popTimeoutLoop nowv w.queue with ⟨fired, rem⟩
  have hpt : popTimeout nowv w.queue = (fired, rem, rem.head?.map (·.time)) := by
    simp [popTimeout, hq, listPeek]
  simp only [schedule_timer_step, hpop, hnlt, if_false, hw, hpt]
  cases hh : rem.head? with
  | none =>
    have hremnil : rem = [] := by
      cases rem with
      | nil => rfl
      | cons a b => simp at hh
    subst hremnil
    by_cases hcap : HASH_CAP < s.interval_map.length <;> simp [hcap]
  | some e2 =>
    have hlk : List.lookup e.listId (updateStore s.lists e.listId
        (⟨rem, 0⟩ : TimeoutQueueWrapper T)) = some ⟨rem, 0⟩ := by
      rw [lookup_updateStore, hw]; rfl
    simp only [Option.map_some]
    simp only [hlk]
    simp [updateStore_updateStore]

/-- Every iteration of the `schedule_timer` loop either returns `None`
on an empty heap, returns the head's remaining delay without popping, or
pops an expired entry, strictly decreasing the number of expired heap
entries. -/
theorem schedule_timer_step_cases (s : TimeOutList T) (nowv : Nat) :
    (s.timer_bh = [] ∧ schedule_timer_step s nowv = SchedStep.done none s) ∨
    (∃ e rest, heapPopMin s.timer_bh = some (e, rest) ∧ nowv < e.time ∧
      schedule_timer_step s nowv = SchedStep.done (some (e.time - nowv)) s) ∨
    (∃ fired s1, schedule_timer_step s nowv = SchedStep.next fired s1 ∧
      countLE s1.timer_bh nowv < countLE s.timer_bh nowv) := by
  cases hp : heapPopMin s.timer_bh with
  | none =>
    left
    exact ⟨(heapPopMin_none_iff _).mp hp, by simp [schedule_timer_step, hp]⟩
  | some p =>
    obtain ⟨e, rest⟩ := p
    by_cases hlt : nowv < e.time
    · right; left
      refine ⟨e, rest, rfl, hlt, ?_⟩
      simp [schedule_timer_step, hp, hlt]
    · right; right
      have hle : e.time ≤ nowv := by omega
      have hperm := heapPopMin_perm _ e rest hp
      have hcnt : countLE s.timer_bh nowv = countLE rest nowv + 1 := by
        rw [countLE_perm hperm]; exact countLE_cons_le hle
      cases hw : List.lookup e.listId s.lists with
      | none =>
        refine ⟨[], { s with timer_bh := rest }, ?_, ?_⟩
        · simp [schedule_timer_step, hp, hlt, hw]
        · simp [hcnt]
      | some w =>
        rw [schedule_timer_step_expired s nowv e rest w hp hle hw]
        cases hh : (popTimeoutLoop nowv w.queue).2.head? with
        | some e2 =>
          refine ⟨_, _, rfl, ?_⟩
          have hgt : nowv < e2.time := popTimeoutLoop_rem_head nowv w.queue e2 hh
          have : countLE (rest ++ [⟨e2.time, e.interval, e.listId⟩]) nowv =
              countLE rest nowv := by
            rw [countLE_append, countLE_single_gt hgt]
            omega
          simp only [this]
          omega
        | none =>
          by_cases hcap : HASH_CAP < s.interval_map.length
          · rw [if_pos hcap]
            exact ⟨_, _, rfl, by simp [hcnt]⟩
          · rw [if_neg hcap]
            exact ⟨_, _, rfl, by simp [hcnt]⟩

/-- With fuel exceeding the number of expired heap entries, the loop
returns `None` exactly when its final heap is empty. -/
theorem schedule_timer_loop_none_iff (nowv : Nat) :
    ∀ (fuel : Nat) (s : TimeOutList T) (acc : List T),
      countLE s.timer_bh nowv < fuel →
      ((schedule_timer_loop fuel s nowv acc).2.1 = none ↔
        (schedule_timer_loop fuel s nowv acc).2.2.timer_bh = []) := by
  intro fuel
  induction fuel with
  | zero => intro s acc h; omega
  | succ k ih =>
    intro s acc h
    rcases schedule_timer_step_cases s nowv with ⟨hnil, hstep⟩ |
      ⟨e, rest, hp, hlt, hstep⟩ | ⟨fired, s1, hstep, hdec⟩
    · simp [schedule_timer_loop, hstep, hnil]
    · have hne : s.timer_bh ≠ [] := by
        intro hc
        rw [(heapPopMin_none_iff s.timer_bh).mpr hc] at hp
        exact Option.noConfusion hp
      simp [schedule_timer_loop, hstep, hne]
    · simp only [schedule_timer_loop, hstep]
      exact ih s1 (acc ++ fired) (by omega)

/-- A sample timeout-list state used by the concrete witnesses: one
interval list (id 0, interval 10 ns) holding entries expiring at 5, 7
and 20, currently installed in the heap. -/
def sampleTimeOutList : TimeOutList Nat :=
  { lists := [(0, ⟨[⟨5, 100⟩, ⟨7, 200⟩, ⟨20, 300⟩], 1⟩)],
    interval_map := [(10, 0)],
    timer_bh := [⟨5, 10, 0⟩],
    next_id := 1 }

/-- C5: `schedule_timer(now, f)` returns `None` exactly when the heap is
empty; when the head (minimal) entry's expiry is greater than `now` it
returns `Some(head.time − now)` without popping; otherwise it pops the
head, resets that list's `in_use` to 0, hands `f` every entry of the
interval list whose expiry is ≤ `now`, and afterwards either re-pushes
the entry keyed by the new front's expiry (list non-empty, the
increment-from-0 of `in_use` winning) or, for a drained list, removes
the interval from the map only when the map holds more than `HASH_CAP`
entries. -/
theorem schedule_timer_spec (T : Type) (s : TimeOutList T) (nowv : Nat) :
    (s.timer_bh = [] →
      schedule_timer_step s nowv = SchedStep.done none s ∧
      schedule_timer s nowv = ([], none, s)) ∧
    (∀ e rest, heapPopMin s.timer_bh = some (e, rest) → nowv < e.time →
      (∀ x ∈ s.timer_bh, e.time ≤ x.time) ∧
      schedule_timer_step s nowv = SchedStep.done (some (e.time - nowv)) s ∧
      schedule_timer s nowv = ([], some (e.time - nowv), s)) ∧
    (∀ e rest w, heapPopMin s.timer_bh = some (e, rest) → e.time ≤ nowv →
      List.lookup e.listId s.lists = some w →
      schedule_timer_step s nowv =
        match (popTimeoutLoop nowv w.queue).2.head? with
        | some e2 =>
          SchedStep.next (popTimeoutLoop nowv w.queue).1
            { s with
              timer_bh := rest ++ [⟨e2.time, e.interval, e.listId⟩],
              lists := updateStore s.lists e.listId
                ⟨(popTimeoutLoop nowv w.queue).2, 1⟩ }
        | none =>
          SchedStep.next (popTimeoutLoop nowv w.queue).1
            (if HASH_CAP < s.interval_map.length then
              { s with
                timer_bh := rest,
                lists := updateStore s.lists e.listId ⟨[], 0⟩,
                interval_map := removeKey s.interval_map e.interval }
            else
              { s with
                timer_bh := rest,
                lists := updateStore s.lists e.listId ⟨[], 0⟩ })) ∧
    ((schedule_timer s nowv).2.1 = none ↔
      (schedule_timer s nowv).2.2.timer_bh = []) := by
  refine ⟨?_, ?_, ?_, ?_⟩
  · intro h
    have hp : heapPopMin s.timer_bh = none := (heapPopMin_none_iff _).mpr h
    have hstep : schedule_timer_step s nowv = SchedStep.done none s := by
      simp [schedule_timer_step, hp]
    refine ⟨hstep, ?_⟩
    simp [schedule_timer, h, countLE, schedule_timer_loop, hstep]
  · intro e rest hp hlt
    have hstep : schedule_timer_step s nowv =
        SchedStep.done (some (e.time - nowv)) s := by
      simp [schedule_timer_step, hp, hlt]
    exact ⟨heapPopMin_le _ e rest hp, hstep,
      by simp [schedule_timer, schedule_timer_loop, hstep]⟩
  · intro e rest w hp hle hw
    exact schedule_timer_step_expired s nowv e rest w hp hle hw
  · exact schedule_timer_loop_none_iff nowv _ s [] (by omega)

/-- Witness for `schedule_timer_spec`: on the sample state at `now = 10`
the single heap entry (expiry 5) is popped, the two entries expiring at
5 and 7 are fired in order, and the entry is re-pushed keyed by the new
front expiry 20; the returned delay is not `None` and the final heap is
non-empty. -/
theorem schedule_timer_spec_witness :
    schedule_timer_step sampleTimeOutList 10 =
      SchedStep.next [100, 200]
        { lists := [(0, ⟨[⟨20, 300⟩], 1⟩)],
          interval_map := [(10, 0)],
          timer_bh := [⟨20, 10, 0⟩],
          next_id := 1 } ∧
    ¬((schedule_timer sampleTimeOutList 10).2.1 = none) := by
  have h := schedule_timer_spec Nat sampleTimeOutList 10
  have h3 := h.2.2.1 ⟨5, 10, 0⟩ [] ⟨[⟨5, 100⟩, ⟨7, 200⟩, ⟨20, 300⟩], 1⟩
    rfl (by decide) rfl
  refine ⟨h3.trans (by rfl), ?_⟩
  intro hcon
  have h4 := (h.2.2.2).mp hcon
  have : (schedule_timer sampleTimeOutList 10).2.2.timer_bh = [⟨20, 10, 0⟩] := by rfl
  rw [this] at h4
  exact List.noConfusion h4

/-- C6: a timer entry created by `add_timer(d, data)` is stored with
expiry `now() + dur_to_ns d` (modulo the `u64` wrap, exact when the sum
does not overflow); `pop_timeout` hands `f` exactly the payloads of the
maximal expired prefix of the interval list, in insertion order, and
every drained entry satisfies `expiry ≤ now`; appending an entry whose
expiry dominates the list keeps the list sorted by expiry (entries of
one fixed duration arrive with nondecreasing `now`, hence nondecreasing
expiry); together: a timer installed at `now` with duration `d` fires at
a scheduling instant `now'` only if `now + dur_to_ns d ≤ now'`. -/
theorem add_timer_monotonic_ordered (T : Type) :
    (∀ (s : TimeOutList T) (nowA : Nat) (dur : Duration) (data : T),
      (add_timer s nowA dur data).2.2 = (nowA + dur_to_ns dur) % U64 ∧
      (nowA + dur_to_ns dur < U64 →
        (add_timer s nowA dur data).2.2 = nowA + dur_to_ns dur)) ∧
    (∀ (nowv : Nat) (q : List (TimeoutData T)),
      (popTimeoutLoop nowv q).1 =
        (q.takeWhile fun e => decide (e.time ≤ nowv)).map (·.data) ∧
      ∀ e ∈ q.takeWhile fun e => decide (e.time ≤ nowv), e.time ≤ nowv) ∧
    (∀ (q : List (TimeoutData T)) (t : Nat) (d : T),
      List.Pairwise (fun a b => a.time ≤ b.time) q →
      (∀ e ∈ q, e.time ≤ t) →
      List.Pairwise (fun a b => a.time ≤ b.time) (listPush q ⟨t, d⟩).1) ∧
    (∀ nowA (dur : Duration) (nowFire : Nat), nowA + dur_to_ns dur < U64 →
      (nowA + dur_to_ns dur) % U64 ≤ nowFire →
      nowA + dur_to_ns dur ≤ nowFire) := by
  refine ⟨?_, ?_, ?_, ?_⟩
  · intro s nowA dur data
    have hbase : (add_timer s nowA dur data).2.2 = (nowA + dur_to_ns dur) % U64 := by
      simp only [add_timer]
      cases hmap : List.lookup (dur_to_ns dur) s.interval_map with
      | none => simp
      | some id =>
        cases hl : List.lookup id s.lists with
        | none => simp [hl]
        | some w =>
          by_cases hh :
              (listPush w.queue ⟨(nowA + dur_to_ns dur) % U64, data⟩).2 = true <;>
            simp [hl, hh]
    exact ⟨hbase, fun hov => by rw [hbase, Nat.mod_eq_of_lt hov]⟩
  · intro nowv q
    refine ⟨by rw [popTimeoutLoop_eq], ?_⟩
    intro e he
    have := List.mem_takeWhile_imp he
    simpa using this
  · intro q t d hsort hdom
    simp only [listPush]
    rw [List.pairwise_append]
    refine ⟨hsort, List.pairwise_singleton _ _, ?_⟩
    intro a ha b hb
    simp at hb
    subst hb
    exact hdom a ha
  · intro nowA dur nowFire hov hle
    rwa [Nat.mod_eq_of_lt hov] at hle

/-- Witness for `add_timer_monotonic_ordered`: a timer added on the
sample state at `now = 30` with a 10 ns duration stores expiry 40;
draining the sample list at `now = 10` fires exactly the payloads 100
and 200 (expiries 5 and 7, both ≤ 10), and appending expiry 40 keeps
the list sorted. -/
theorem add_timer_monotonic_ordered_witness :
    (add_timer sampleTimeOutList 30 ⟨0, 10⟩ 999).2.2 = 40 ∧
    (popTimeoutLoop 10 [⟨5, 100⟩, ⟨7, 200⟩, ⟨20, 300⟩] :
      List Nat × List (TimeoutData Nat)).1 = [100, 200] ∧
    List.Pairwise (fun a b => a.time ≤ b.time)
      (listPush [⟨5, (100 : Nat)⟩, ⟨7, 200⟩, ⟨20, 300⟩] ⟨40, 999⟩).1 := by
  have h := add_timer_monotonic_ordered Nat
  refine ⟨?_, ?_, ?_⟩
  · have h1 := (h.1 sampleTimeOutList 30 ⟨0, 10⟩ 999).2
      (by rw [U64_eq]; norm_num [dur_to_ns, satAdd, satMul, NANOS_PER_SEC, U64_eq])
    rw [h1]
    norm_num [dur_to_ns, satAdd, satMul, NANOS_PER_SEC, U64_eq]
  · have h2 := (h.2.1 10 [⟨5, 100⟩, ⟨7, 200⟩, ⟨20, 300⟩]).1
    rw [h2]
    rfl
  · exact h.2.2.1 [⟨5, 100⟩, ⟨7, 200⟩, ⟨20, 300⟩] 40 999
      (by decide) (by decide)

/-! ### Heap minimality (per-interval-list transition system)

The observable state of one interval list: the number of entries linked
in it, its `in_use` counter, and how many `timer_bh` entries point at
it.  The transitions are the operations of `timeout_list.rs` taken
atomically, projected onto this one list. -/

structure ListObs where
  len : Nat
  in_use : Nat
  in_heap : Nat
deriving DecidableEq, Repr

/-- The atomic operations of the timeout list as they affect one
interval list:
* `add_tail` — `add_timer` on a non-empty list: push only, no install;
* `add_head_install` — `add_timer` on an empty list with
  `install_timer_bh` seeing `in_use.fetch_add(1) == 0`: push the heap
  entry;
* `add_head_busy` — `add_timer` on an empty list whose `in_use` is
  nonzero (its stale heap entry still pending): the `fetch_add` bumps
  the counter but pushes nothing;
* `fire_repush` — `schedule_timer` pops the list's heap entry, stores
  `0` into `in_use`, drains `k` of the entries leaving some, and
  re-pushes (the `fetch_add` from the fresh `0` wins);
* `fire_drain` — `schedule_timer` pops the heap entry, stores `0`,
  drains the whole list and pushes nothing;
* `del_entry` — the timer thread unlinks a cancelled entry
  (`TimerThread::run` calling `handle.remove()`; modelled from the
  spec, the intrusive list implementation being outside `src/`). -/
inductive ListStep : ListObs → ListObs → Prop where
  | add_tail (o : ListObs) (h : o.len ≠ 0) :
      ListStep o ⟨o.len + 1, o.in_use, o.in_heap⟩
  | add_head_install (o : ListObs) (hl : o.len = 0) (hu : o.in_use = 0) :
      ListStep o ⟨1, 1, o.in_heap + 1⟩
  | add_head_busy (o : ListObs) (hl : o.len = 0) (hu : o.in_use ≠ 0) :
      ListStep o ⟨1, o.in_use + 1, o.in_heap⟩
  | fire_repush (o : ListObs) (k : Nat) (hh : o.in_heap ≠ 0) (hk : k < o.len) :
      ListStep o ⟨o.len - k, 1, o.in_heap⟩
  | fire_drain (o : ListObs) (hh : o.in_heap ≠ 0) :
      ListStep o ⟨0, 0, o.in_heap - 1⟩
  | del_entry (o : ListObs) (h : o.len ≠ 0) :
      ListStep o ⟨o.len - 1, o.in_use, o.in_heap⟩

/-- States of one interval list reachable from a fresh list. -/
def ListReachable (o : ListObs) : Prop :=
  Relation.ReflTransGen ListStep ⟨0, 0, 0⟩ o

/-- Counterexample to C4 as stated: the state with `in_use = 2` is
reachable — install a timer on a fresh list (the list enters the heap
with `in_use = 1`), cancel it (`del_timer` unlinks the only entry while
the heap entry remains), then add a timer again: the new push sees an
empty list, so `install_timer_bh` runs `in_use.fetch_add(1)`, which
returns 1 (pushing nothing) and leaves the counter at 2.  So the in-use
counter is not always 0 or 1. -/
theorem in_use_can_reach_two :
    ListReachable ⟨1, 2, 1⟩ ∧
    ¬((⟨1, 2, 1⟩ : ListObs).in_use = 0 ∨ (⟨1, 2, 1⟩ : ListObs).in_use = 1) := by
  constructor
  · have s1 : ListStep ⟨0, 0, 0⟩ ⟨1, 1, 1⟩ :=
      ListStep.add_head_install ⟨0, 0, 0⟩ rfl rfl
    have s2 : ListStep ⟨1, 1, 1⟩ ⟨0, 1, 1⟩ :=
      ListStep.del_entry ⟨1, 1, 1⟩ (by decide)
    have s3 : ListStep ⟨0, 1, 1⟩ ⟨1, 2, 1⟩ :=
      ListStep.add_head_busy ⟨0, 1, 1⟩ rfl (by decide)
    exact Relation.ReflTransGen.tail
      (Relation.ReflTransGen.tail (Relation.ReflTransGen.single s1) s2) s3
  · decide

/-- C4 (amended): in every reachable state each interval list appears in
the `timer_bh` at most once, and a list whose `in_use` counter is `0` is
not in the heap (so a heap entry is pushed only when the
increment-from-0 of `install_timer_bh` wins); the `in_use` counter
itself may transiently exceed 1 because the installation uses
`fetch_add`, not a compare-and-swap from 0.  Additionally, on the full
model, `install_timer_bh` increments `in_use` by exactly 1 and pushes
the heap entry iff the previous counter was 0. -/
theorem heap_minimality (o : ListObs) (hreach : ListReachable o) :
    (o.in_heap ≤ 1 ∧ (o.in_use = 0 → o.in_heap = 0)) ∧
    (∀ (T : Type) (s : TimeOutList T) (e : IntervalEntry)
        (w : TimeoutQueueWrapper T), List.lookup e.listId s.lists = some w →
      (install_timer_bh s e).timer_bh =
        (if w.in_use = 0 then s.timer_bh ++ [e] else s.timer_bh) ∧
      List.lookup e.listId (install_timer_bh s e).lists =
        some ⟨w.queue, w.in_use + 1⟩) := by
  constructor
  · induction hreach with
    | refl => simp
    | tail hsteps hstep ih =>
      have h1 := ih.1
      cases hstep with
      | add_tail h => exact ih
      | add_head_install hl hu =>
        have h0 := ih.2 hu
        exact ⟨by simp; omega, by simp⟩
      | add_head_busy hl hu =>
        refine ⟨by simpa using h1, ?_⟩
        intro hcon
        simp at hcon
      | fire_repush k hh hk =>
        refine ⟨by simpa using h1, ?_⟩
        intro hcon
        simp at hcon
      | fire_drain hh =>
        exact ⟨by simp; omega, by simp; omega⟩
      | del_entry h => exact ih
  · intro T s e w hw
    constructor
    · simp only [install_timer_bh, hw]
      by_cases hu : w.in_use = 0 <;> simp [hu]
    · simp only [install_timer_bh, hw]
      by_cases hu : w.in_use = 0 <;>
        simp [hu, lookup_updateStore, hw]

/-- Witness for `heap_minimality`: after installing a timer on a fresh
list the list is in the heap exactly once, and a concrete
`install_timer_bh` on a busy list (`in_use = 1`) bumps the counter to 2
without pushing a second heap entry. -/
theorem heap_minimality_witness :
    ((⟨1, 1, 1⟩ : ListObs).in_heap ≤ 1) ∧
    (install_timer_bh
        { lists := [(0, ⟨[⟨5, (100 : Nat)⟩], 1⟩)],
          interval_map := [(10, 0)],
          timer_bh := [⟨5, 10, 0⟩],
          next_id := 1 } ⟨5, 10, 0⟩).timer_bh = [⟨5, 10, 0⟩] := by
  have h1 := heap_minimality ⟨1, 1, 1⟩
    (Relation.ReflTransGen.single (ListStep.add_head_install ⟨0, 0, 0⟩ rfl rfl))
  refine ⟨h1.1.1, ?_⟩
  have h2 := (h1.2 Nat
    { lists := [(0, ⟨[⟨5, (100 : Nat)⟩], 1⟩)],
      interval_map := [(10, 0)],
      timer_bh := [⟨5, 10, 0⟩],
      next_id := 1 } ⟨5, 10, 0⟩ ⟨[⟨5, 100⟩], 1⟩ rfl).1
  rw [h2]
  rfl

end Cogo
